import Mathlib

/-!
Verification of `demo.py` from the immunization-strategy example repository.

The script builds a graph from CLI parameters (`build_graph`), encodes a
balanced-partition-with-separator problem as a constrained quadratic model
(`build_cqm`), sends it to a remote sampler and picks the best (feasible if
possible) sample (`run_cqm_and_collect_solutions`), and interprets the sample
as a partition (`process_sample`).

The embedding below is a direct shallow translation of those functions.
Graph nodes are labelled `0 .. n-1` (as for every generator the script uses),
a variable `x_{v}_{i}` is embedded as the pair `(v, i)`, and a returned sample
is a function from variables to integer values.  The networkx generators are
randomized, so each generator is abstracted to the part of its behaviour the
script depends on: the node count of the graph it returns and the parameter
preconditions under which it raises (`none`).  Python's `%` on integers agrees
with Lean's `Int` `%` for a positive divisor, so `% 2` is translated literally.
-/

namespace Immunization

/-- A graph with nodes `0 .. nodeCount - 1` and a list of undirected edges,
each edge listed once as in networkx `G.edges()`. -/
structure Graph where
  nodeCount : Nat
  edges : List (Nat × Nat)
deriving DecidableEq, Repr

/-- The binary variable `Binary(f'x_{name}_{i}')` of `demo.py`, embedded as the
pair of its node label and its group index. -/
abbrev Var : Type := Nat × Nat

/-- An assignment of integer values to the model variables (a returned sample). -/
abbrev Assignment : Type := Var → Int

/-- One quadratic term `x * y` (coefficient 1) of a constraint expression. -/
structure QuadTerm where
  a : Var
  b : Var
deriving DecidableEq, Repr

/-- The constrained quadratic model built by `build_cqm` in `demo.py`:
the objective (a sum of variables), one discrete (one-hot) constraint per
node, the unlabelled balance constraint `quicksum(g1) - quicksum(g2) == 0`
kept as the two variable lists `g1` and `g2`, and the labelled constraint
`quicksum(edge_sum) == 0` kept as its list of quadratic terms and its label. -/
structure CQM where
  objective : List Var
  discrete : List (List Var)
  balance_g1 : List Var
  balance_g2 : List Var
  cross_terms : List QuadTerm
  cross_label : String
deriving DecidableEq, Repr

/-- Function `build_cqm` from `demo.py` (lines 111-143).  `vars[name][i]` is the pair
`(name, i)`; the `edge_sum` loop appends the two products
`vars[a][0]*vars[b][1]` and `vars[a][1]*vars[b][0]` for each non-self-loop
edge, translated as a fold over the edge list. -/
def build_cqm (G : Graph) : CQM :=
  let num_groups := 3
  let nodes := List.range G.nodeCount
  { objective := nodes.map (fun i => (i, 2))
    discrete := nodes.map (fun v => (List.range num_groups).map (fun i => (v, i)))
    balance_g1 := nodes.map (fun i => (i, 0))
    balance_g2 := nodes.map (fun i => (i, 1))
    cross_terms := G.edges.foldl
      (fun edge_sum e =>
        if e.1 ≠ e.2 then
          edge_sum ++ [⟨(e.1, 0), (e.2, 1)⟩, ⟨(e.1, 1), (e.2, 0)⟩]
        else edge_sum) []
    cross_label := "cross edges" }

/-- Value of `quicksum` of a list of variables under an assignment. -/
def evalSum (xs : List Var) (s : Assignment) : Int :=
  (xs.map s).sum

/-- Value of a sum of quadratic terms under an assignment. -/
def evalCross (ts : List QuadTerm) (s : Assignment) : Int :=
  (ts.map (fun t => s t.a * s t.b)).sum

/-- Every variable of the model is a dimod `Binary`, so a sample assigns each
variable the value 0 or 1. -/
def IsBinary (s : Assignment) : Prop :=
  ∀ x : Var, s x = 0 ∨ s x = 1

/-- The sample satisfies every discrete (one-hot) constraint of the model:
the values of each constrained variable list sum to 1. -/
def SatDiscrete (c : CQM) (s : Assignment) : Prop :=
  ∀ lst ∈ c.discrete, evalSum lst s = 1

/-- The sample satisfies the balance constraint
`quicksum(g1) - quicksum(g2) == 0`. -/
def SatBalance (c : CQM) (s : Assignment) : Prop :=
  evalSum c.balance_g1 s - evalSum c.balance_g2 s = 0

/-- The sample satisfies the labelled constraint `quicksum(edge_sum) == 0`. -/
def SatCross (c : CQM) (s : Assignment) : Prop :=
  evalCross c.cross_terms s = 0

/-- Exactly one of the three variables of node `v` has value 1. -/
def OneHot (s : Assignment) (v : Nat) : Prop :=
  (s (v, 0) = 1 ∧ ¬s (v, 1) = 1 ∧ ¬s (v, 2) = 1) ∨
  (¬s (v, 0) = 1 ∧ s (v, 1) = 1 ∧ ¬s (v, 2) = 1) ∨
  (¬s (v, 0) = 1 ∧ ¬s (v, 1) = 1 ∧ s (v, 2) = 1)

/-- Function `process_sample` from `demo.py` (lines 162-192).  The Python code iterates
over the sample dictionary, whose keys are the variables `x_{v}_{i}` of the
`nodeCount` nodes, and appends node `v` to `results[i]` whenever the value of
`x_{v}_{i}` is 1; this is translated as filtering the node range for each
group index.  The `illegal_edges` comprehension is translated literally. -/
def process_sample (G : Graph) (s : Assignment) :
    List Nat × List Nat × List Nat × List (Nat × Nat) :=
  let results : Nat → List Nat := fun i =>
    (List.range G.nodeCount).filter (fun v => s (v, i) == 1)
  let group_1 := results 0
  let group_2 := results 1
  let sep_group := results 2
  let illegal_edges := G.edges.filter
    (fun e => s (e.1, 0) * s (e.2, 1) == 1 || s (e.1, 1) * s (e.2, 0) == 1)
  (group_1, group_2, sep_group, illegal_edges)

/-- The separator fraction `len(sep_group)/len(G.nodes())` printed by
`process_sample` (line 185). -/
def separator_fraction (G : Graph) (s : Assignment) : Rat :=
  ((process_sample G s).2.2.1.length : Rat) / (G.nodeCount : Rat)

/-- One record of a dimod sampleset: its sample and its feasibility flag. -/
structure SampleRecord (α : Type) where
  sample : α
  is_feasible : Bool
deriving DecidableEq, Repr

/-- Function `run_cqm_and_collect_solutions` from `demo.py` (lines 145-160), applied to
the sampleset the sampler returned.  A dimod sampleset is ordered by energy
(best first) and `.filter` preserves that order, so the sampleset is embedded
as the best-first list of its records and `.first` as the head; `.first` on an
empty sampleset raises, translated as `none`. -/
def run_cqm_and_collect_solutions {α : Type}
    (sampleset : List (SampleRecord α)) : Option α :=
  let feasible_sampleset := sampleset.filter (fun d => d.is_feasible)
  if feasible_sampleset.length = 0 then
    (sampleset.head?).map SampleRecord.sample
  else
    feasible_sampleset.head?.map SampleRecord.sample

/-! ### `build_graph` and the networkx generators

The generators are randomized, so the graph they return is abstracted to its
node count (`some n`), and a raised `NetworkXError` to `none`.  The raise
conditions are the generators' documented parameter preconditions. -/

/-- The CLI `--graph` choice (`read_in_args` restricts it to these five). -/
inductive GraphChoice where
  | karate
  | internet
  | randReg
  | er
  | sf
deriving DecidableEq, Repr

/-- The parsed CLI arguments used by `build_graph`.  `nodes`, `degree` and
`new_edges` are Python ints; `prob` is a Python float, embedded as a rational
(the script only compares it with 0 and 1). -/
structure Args where
  graph : GraphChoice
  nodes : Int
  degree : Int
  prob : Rat
  new_edges : Int
deriving DecidableEq, Repr

/-- Constant `max_vars = int(5000/3)` from `build_graph`. -/
def max_vars : Int := 1666

/-- Generator `nx.karate_club_graph()`: the fixed 34-node karate-club graph. -/
def karate_club_graph : Option Int := some 34

/-- Generator `nx.random_internet_as_graph(n)`: returns an `n`-node graph for the
clamped range `1000 <= n <= max_vars` in which the script invokes it. -/
def random_internet_as_graph (n : Int) : Option Int := some n

/-- Generator `nx.random_regular_graph(d, n)`: raises unless `n*d` is even and
`0 <= d < n`; otherwise returns an `n`-node `d`-regular graph. -/
def random_regular_graph (d n : Int) : Option Int :=
  if (n * d) % 2 ≠ 0 then none
  else if ¬(0 ≤ d ∧ d < n) then none
  else some n

/-- Generator `nx.erdos_renyi_graph(n, p)` (`gnp_random_graph`): never raises for the
parameters the script can pass and returns an `n`-node graph. -/
def erdos_renyi_graph (n : Int) (_p : Rat) : Option Int := some n

/-- Generator `nx.barabasi_albert_graph(n, m)`: raises unless `1 <= m < n`; otherwise
returns an `n`-node graph. -/
def barabasi_albert_graph (n m : Int) : Option Int :=
  if m < 1 ∨ m ≥ n then none else some n

/-- The parameter adjustments of the `rand-reg` branch of `build_graph`
(lines 56-73), returning the `(degree, nodes)` pair passed to
`nx.random_regular_graph`.  The out-of-range node-count check only prints a
warning and changes nothing.  Python's `x % 2 == 1` agrees with Lean's for
a nonnegative `x`, and `degree * nodes` is even whenever it is negative here
(then `degree = min(4, nodes-1) = nodes-1` with `nodes <= 0`, a product of
consecutive integers), so the translation with Lean's `%` is faithful. -/
def rand_reg_params (nodes degree : Int) : Int × Int :=
  let degree := if degree < 0 ∨ degree ≥ nodes then min 4 (nodes - 1) else degree
  if degree * nodes % 2 = 1 then
    if degree > 0 then (degree - 1, nodes)
    else if nodes - 1 > degree then (degree, nodes - 1)
    else (4, 1000)
  else (degree, nodes)

/-- Function `build_graph` from `demo.py` (lines 41-98), abstracted to the node count
of the graph it returns (`none` when the generator call raises).  The `else`
branch of the Python `if/elif` chain is unreachable because `read_in_args`
restricts `--graph` to the five listed choices. -/
def build_graph (args : Args) : Option Int :=
  match args.graph with
  | .karate => karate_club_graph
  | .internet =>
      let nodes :=
        if args.nodes < 1000 ∨ args.nodes > max_vars then 1000 else args.nodes
      random_internet_as_graph nodes
  | .randReg =>
      let p := rand_reg_params args.nodes args.degree
      random_regular_graph p.1 p.2
  | .er =>
      let nodes :=
        if args.nodes < 1 ∨ args.nodes > max_vars then 1000 else args.nodes
      let prob := if args.prob < 0 ∨ args.prob > 1 then (1 / 4 : Rat) else args.prob
      erdos_renyi_graph nodes prob
  | .sf =>
      let nodes :=
        if args.nodes < 1 ∨ args.nodes > max_vars then 1000 else args.nodes
      let new_edges :=
        if args.new_edges < 0 ∨ args.new_edges > nodes then 5 else args.new_edges
      barabasi_albert_graph nodes new_edges

/-! ### Helper lemmas -/

/-- The two quadratic terms appended for the edge `e` in the `edge_sum` loop. -/
def edgeTerms (e : Nat × Nat) : List QuadTerm :=
  if e.1 ≠ e.2 then [⟨(e.1, 0), (e.2, 1)⟩, ⟨(e.1, 1), (e.2, 0)⟩] else []

lemma cross_foldl_eq_bind (l : List (Nat × Nat)) (init : List QuadTerm) :
    l.foldl
      (fun edge_sum e =>
        if e.1 ≠ e.2 then
          edge_sum ++ [⟨(e.1, 0), (e.2, 1)⟩, ⟨(e.1, 1), (e.2, 0)⟩]
        else edge_sum) init
    = init ++ l.flatMap edgeTerms := by
  induction l generalizing init with
  | nil => simp
  | cons a t ih =>
      simp only [List.foldl_cons, List.flatMap_cons]
      by_cases h : a.1 ≠ a.2
      · rw [if_pos h, ih]
        simp [edgeTerms, h]
      · rw [if_neg h, ih]
        simp [edgeTerms, h]

lemma build_cqm_cross_terms (G : Graph) :
    (build_cqm G).cross_terms = G.edges.flatMap edgeTerms := by
  simpa [build_cqm] using cross_foldl_eq_bind G.edges []

lemma int_sum_eq_zero (l : List Int) (hnn : ∀ x ∈ l, 0 ≤ x)
    (hsum : l.sum = 0) : ∀ x ∈ l, x = 0 := by
  induction l with
  | nil => simp
  | cons a t ih =>
      have ha : 0 ≤ a := hnn a (by simp)
      have ht : ∀ x ∈ t, 0 ≤ x := fun x hx => hnn x (by simp [hx])
      have htsum : 0 ≤ t.sum := List.sum_nonneg ht
      simp only [List.sum_cons] at hsum
      have ha0 : a = 0 := by omega
      have ht0 : t.sum = 0 := by omega
      intro x hx
      rcases List.mem_cons.mp hx with h | h
      · simp [h, ha0]
      · exact ih ht ht0 x h

lemma sum_map_binary (l : List Nat) (f : Nat → Int)
    (hb : ∀ v ∈ l, f v = 0 ∨ f v = 1) :
    (l.map f).sum = ((l.filter (fun v => f v == 1)).length : Int) := by
  induction l with
  | nil => simp
  | cons a t ih =>
      have ha := hb a (by simp)
      have ht : ∀ v ∈ t, f v = 0 ∨ f v = 1 := fun v hv => hb v (by simp [hv])
      rcases ha with h0 | h1
      · have : (f a == 1) = false := by simp [h0]
        simp [List.filter_cons, this, h0, ih ht]
      · have : (f a == 1) = true := by simp [h1]
        simp [List.filter_cons, this, h1, ih ht, add_comm]

lemma oneHot_of_discrete (G : Graph) (s : Assignment)
    (hb : IsBinary s) (hd : SatDiscrete (build_cqm G) s) :
    ∀ v, v < G.nodeCount → OneHot s v := by
  intro v hv
  have hmem : [(v, 0), (v, 1), (v, 2)] ∈ (build_cqm G).discrete := by
    simp only [build_cqm, List.mem_map]
    exact ⟨v, by simpa using hv, rfl⟩
  have hsum := hd _ hmem
  simp only [evalSum, List.map_cons, List.map_nil, List.sum_cons,
    List.sum_nil] at hsum
  have h0 := hb (v, 0)
  have h1 := hb (v, 1)
  have h2 := hb (v, 2)
  unfold OneHot
  omega

lemma find?_eq_head?_filter {α : Type} (l : List α) (p : α → Bool) :
    l.find? p = (l.filter p).head? := by
  induction l with
  | nil => simp
  | cons a t ih =>
      by_cases h : p a
      · rw [List.find?_cons_of_pos _ h, List.filter_cons_of_pos h, List.head?_cons]
      · rw [List.find?_cons_of_neg _ h, List.filter_cons_of_neg h, ih]

lemma mem_cross_terms_of_edge (G : Graph) (e : Nat × Nat)
    (he : e ∈ G.edges) (hne : e.1 ≠ e.2) :
    (⟨(e.1, 0), (e.2, 1)⟩ : QuadTerm) ∈ (build_cqm G).cross_terms ∧
    (⟨(e.1, 1), (e.2, 0)⟩ : QuadTerm) ∈ (build_cqm G).cross_terms := by
  rw [build_cqm_cross_terms]
  constructor <;>
    · rw [List.mem_flatMap]
      exact ⟨e, he, by simp [edgeTerms, hne]⟩

lemma cross_term_zero (G : Graph) (s : Assignment) (hb : IsBinary s)
    (hc : SatCross (build_cqm G) s) :
    ∀ t ∈ (build_cqm G).cross_terms, s t.a * s t.b = 0 := by
  intro t ht
  have hnn : ∀ x ∈ ((build_cqm G).cross_terms.map (fun t => s t.a * s t.b)), 0 ≤ x := by
    intro x hx
    rcases List.mem_map.mp hx with ⟨u, _, rfl⟩
    rcases hb u.a with h | h <;> rcases hb u.b with h' | h' <;> simp [h, h']
  have := int_sum_eq_zero _ hnn hc (s t.a * s t.b) (List.mem_map.mpr ⟨t, ht, rfl⟩)
  exact this

lemma process_sample_def (G : Graph) (s : Assignment) :
    process_sample G s =
      ((List.range G.nodeCount).filter (fun v => s (v, 0) == 1),
       (List.range G.nodeCount).filter (fun v => s (v, 1) == 1),
       (List.range G.nodeCount).filter (fun v => s (v, 2) == 1),
       G.edges.filter
         (fun e => s (e.1, 0) * s (e.2, 1) == 1 || s (e.1, 1) * s (e.2, 0) == 1)) :=
  rfl

lemma mem_group_iff (G : Graph) (s : Assignment) (i v : Nat) :
    v ∈ (List.range G.nodeCount).filter (fun v => s (v, i) == 1) ↔
      v < G.nodeCount ∧ s (v, i) = 1 := by
  simp [List.mem_filter, List.mem_range]

lemma binary_mul_eq_one {a b : Int} (ha : a = 0 ∨ a = 1) (hb : b = 0 ∨ b = 1)
    (h : a * b = 1) : a = 1 ∧ b = 1 := by
  rcases ha with ha | ha <;> rcases hb with hb | hb <;>
    rw [ha, hb] at h <;> norm_num at h <;> exact ⟨ha, hb⟩

/-- In a binary sample satisfying the discrete and cross-edge constraints,
neither of the two products the `illegal_edges` comprehension tests can be 1. -/
lemma no_cross_products (G : Graph) (s : Assignment)
    (hwf : ∀ e ∈ G.edges, e.1 < G.nodeCount ∧ e.2 < G.nodeCount)
    (hb : IsBinary s) (hd : SatDiscrete (build_cqm G) s)
    (hc : SatCross (build_cqm G) s) :
    ∀ e ∈ G.edges, s (e.1, 0) * s (e.2, 1) ≠ 1 ∧ s (e.1, 1) * s (e.2, 0) ≠ 1 := by
  intro e he
  by_cases hee : e.1 = e.2
  · obtain ⟨hlt, _⟩ := hwf e he
    have hoh := oneHot_of_discrete G s hb hd e.1 hlt
    have h0 := hb (e.1, 0)
    have h1 := hb (e.1, 1)
    unfold OneHot at hoh
    constructor <;> rw [← hee] <;> intro habs
    · obtain ⟨u0, u1⟩ := binary_mul_eq_one h0 h1 habs
      rcases hoh with ⟨_, hn, _⟩ | ⟨hn, _, _⟩ | ⟨hn, _, _⟩
      · exact hn u1
      · exact hn u0
      · exact hn u0
    · obtain ⟨u1, u0⟩ := binary_mul_eq_one h1 h0 habs
      rcases hoh with ⟨_, hn, _⟩ | ⟨hn, _, _⟩ | ⟨hn, _, _⟩
      · exact hn u1
      · exact hn u0
      · exact hn u0
  · have hmem := mem_cross_terms_of_edge G e he hee
    have z1 : s (e.1, 0) * s (e.2, 1) = 0 := cross_term_zero G s hb hc _ hmem.1
    have z2 : s (e.1, 1) * s (e.2, 0) = 0 := cross_term_zero G s hb hc _ hmem.2
    exact ⟨by omega, by omega⟩

/-- C1: for every input graph, the model built by `build_cqm` contains a
constraint forcing the two target groups to have equal size (satisfied exactly
when the group-1 and group-2 lists of `process_sample` have equal length) and
a constraint labelled `cross edges` forcing the quadratic cross-group edge sum
to zero, i.e. no edge may join a group-A node to a group-B node. -/
theorem balance_and_cross_constraints (G : Graph) (s : Assignment)
    (hwf : ∀ e ∈ G.edges, e.1 < G.nodeCount ∧ e.2 < G.nodeCount)
    (hb : IsBinary s) (hd : SatDiscrete (build_cqm G) s) :
    (SatBalance (build_cqm G) s ↔
       (process_sample G s).1.length = (process_sample G s).2.1.length)
    ∧ (build_cqm G).cross_label = "cross edges"
    ∧ (SatCross (build_cqm G) s →
        ∀ e ∈ G.edges, ¬(s (e.1, 0) = 1 ∧ s (e.2, 1) = 1)
          ∧ ¬(s (e.1, 1) = 1 ∧ s (e.2, 0) = 1)) := by
  refine ⟨?_, rfl, ?_⟩
  · have e1 : evalSum (build_cqm G).balance_g1 s
        = (((List.range G.nodeCount).filter (fun v => s (v, 0) == 1)).length : Int) := by
      unfold evalSum build_cqm
      simp only [List.map_map]
      exact sum_map_binary _ _ (fun v _ => hb (v, 0))
    have e2 : evalSum (build_cqm G).balance_g2 s
        = (((List.range G.nodeCount).filter (fun v => s (v, 1) == 1)).length : Int) := by
      unfold evalSum build_cqm
      simp only [List.map_map]
      exact sum_map_binary _ _ (fun v _ => hb (v, 1))
    rw [process_sample_def]
    unfold SatBalance
    rw [e1, e2, sub_eq_zero, Nat.cast_inj]
  · intro hc e he
    have h := no_cross_products G s hwf hb hd hc e he
    constructor
    · rintro ⟨ha, ha'⟩
      exact h.1 (by rw [ha, ha']; norm_num)
    · rintro ⟨ha, ha'⟩
      exact h.2 (by rw [ha, ha']; norm_num)

theorem balance_and_cross_constraints_witness :
    (SatBalance (build_cqm ⟨2, [(0, 1)]⟩) (fun p => if p.2 == 2 then 1 else 0) ↔
       (process_sample ⟨2, [(0, 1)]⟩ (fun p => if p.2 == 2 then 1 else 0)).1.length =
         (process_sample ⟨2, [(0, 1)]⟩ (fun p => if p.2 == 2 then 1 else 0)).2.1.length)
    ∧ (build_cqm ⟨2, [(0, 1)]⟩).cross_label = "cross edges"
    ∧ (SatCross (build_cqm ⟨2, [(0, 1)]⟩) (fun p => if p.2 == 2 then 1 else 0) →
        ∀ e ∈ (⟨2, [(0, 1)]⟩ : Graph).edges,
          ¬((fun p => if p.2 == 2 then (1 : Int) else 0) (e.1, 0) = 1 ∧
              (fun p => if p.2 == 2 then (1 : Int) else 0) (e.2, 1) = 1)
          ∧ ¬((fun p => if p.2 == 2 then (1 : Int) else 0) (e.1, 1) = 1 ∧
              (fun p => if p.2 == 2 then (1 : Int) else 0) (e.2, 0) = 1)) :=
  balance_and_cross_constraints ⟨2, [(0, 1)]⟩ (fun p => if p.2 == 2 then 1 else 0)
    (by decide) (fun x => by by_cases h : x.2 == 2 <;> simp [h])
    (by unfold SatDiscrete; decide)

/-- C2: a binary sample that satisfies the discrete one-hot constraints and
the `cross edges` constraint of the model built for `G` yields an empty
`illegal_edges` list in `process_sample`. -/
theorem no_illegal_edges (G : Graph) (s : Assignment)
    (hwf : ∀ e ∈ G.edges, e.1 < G.nodeCount ∧ e.2 < G.nodeCount)
    (hb : IsBinary s) (hd : SatDiscrete (build_cqm G) s)
    (hc : SatCross (build_cqm G) s) :
    (process_sample G s).2.2.2 = [] := by
  rw [process_sample_def]
  dsimp only
  rw [List.filter_eq_nil_iff]
  intro e he
  have h := no_cross_products G s hwf hb hd hc e he
  simp only [Bool.or_eq_true, beq_iff_eq, not_or]
  exact ⟨h.1, h.2⟩

theorem no_illegal_edges_witness :
    (process_sample ⟨2, [(0, 1)]⟩ (fun p => if p.2 == 2 then 1 else 0)).2.2.2 = [] :=
  no_illegal_edges ⟨2, [(0, 1)]⟩ (fun p => if p.2 == 2 then 1 else 0)
    (by decide) (fun x => by by_cases h : x.2 == 2 <;> simp [h])
    (by unfold SatDiscrete; decide) (by unfold SatCross; decide)

/-- C5: the sampler result handling returns the first (best) feasible sample
when one exists and otherwise falls back to the first (best) sample of the
unfiltered sampleset. -/
theorem feasible_first_with_fallback {α : Type} (sampleset : List (SampleRecord α)) :
    run_cqm_and_collect_solutions sampleset =
      ((sampleset.find? (fun d => d.is_feasible)).or sampleset.head?).map
        SampleRecord.sample := by
  unfold run_cqm_and_collect_solutions
  rw [find?_eq_head?_filter]
  rcases h : sampleset.filter (fun d => d.is_feasible) with _ | ⟨r, t⟩
  · simp [h]
  · simp [h]

lemma build_cqm_objective (G : Graph) :
    (build_cqm G).objective = (List.range G.nodeCount).map (fun i => (i, 2)) :=
  rfl

lemma build_cqm_discrete (G : Graph) :
    (build_cqm G).discrete =
      (List.range G.nodeCount).map (fun v => [(v, 0), (v, 1), (v, 2)]) :=
  rfl

lemma discrete_flatten_mem (n : Nat) (x : Var) :
    x ∈ ((List.range n).map (fun v => [((v : Nat), (0 : Nat)), (v, 1), (v, 2)])).flatten ↔
      x.1 < n ∧ (x.2 = 0 ∨ x.2 = 1 ∨ x.2 = 2) := by
  rw [List.mem_flatten]
  constructor
  · rintro ⟨l, hl, hx⟩
    rcases List.mem_map.mp hl with ⟨v, hv, rfl⟩
    have hvn := List.mem_range.mp hv
    simp only [List.mem_cons, List.not_mem_nil, or_false] at hx
    rcases hx with h | h | h
    · rw [h]; exact ⟨hvn, Or.inl rfl⟩
    · rw [h]; exact ⟨hvn, Or.inr (Or.inl rfl)⟩
    · rw [h]; exact ⟨hvn, Or.inr (Or.inr rfl)⟩
  · rintro ⟨h1, h2⟩
    refine ⟨[(x.1, 0), (x.1, 1), (x.1, 2)], List.mem_map.mpr ⟨x.1, List.mem_range.mpr h1, rfl⟩, ?_⟩
    obtain ⟨a, b⟩ := x
    rcases h2 with h | h | h <;> rw [show b = _ from h] <;> simp

lemma discrete_flatten_length (n : Nat) :
    (((List.range n).map (fun v => [((v : Nat), (0 : Nat)), (v, 1), (v, 2)])).flatten).length
      = 3 * n := by
  induction n with
  | zero => rfl
  | succ m ih =>
      rw [List.range_succ, List.map_append, List.flatten_append, List.length_append, ih]
      simp
      omega

lemma discrete_flatten_nodup (n : Nat) :
    (((List.range n).map (fun v => [((v : Nat), (0 : Nat)), (v, 1), (v, 2)])).flatten).Nodup := by
  induction n with
  | zero => simp
  | succ m ih =>
      rw [List.range_succ, List.map_append, List.flatten_append]
      apply List.Nodup.append ih
      · simp
      · intro x hx hx'
        have h1 := (discrete_flatten_mem m x).mp hx
        simp only [List.map_cons, List.map_nil, List.flatten_cons, List.flatten_nil,
          List.append_nil, List.mem_cons, List.not_mem_nil, or_false] at hx'
        rcases hx' with h | h | h <;> rw [h] at h1 <;> omega

/-- C6: the function `build_cqm` creates the three binary variables `x_v_0`, `x_v_1`,
`x_v_2` of every node (3n distinct variables in total), adds exactly one
discrete constraint per node (over that node's three variables), and its
objective evaluates, on any binary sample, to the size of the separator group
of `process_sample`, so minimizing the objective minimizes the separator. -/
theorem variables_discrete_objective (G : Graph) :
    (build_cqm G).discrete.length = G.nodeCount
    ∧ (∀ v, v < G.nodeCount → [(v, 0), (v, 1), (v, 2)] ∈ (build_cqm G).discrete)
    ∧ (build_cqm G).discrete.flatten.length = 3 * G.nodeCount
    ∧ (build_cqm G).discrete.flatten.Nodup
    ∧ (∀ s : Assignment, IsBinary s →
        evalSum (build_cqm G).objective s = ((process_sample G s).2.2.1.length : Int)) := by
  refine ⟨?_, ?_, ?_, ?_, ?_⟩
  · rw [build_cqm_discrete]
    simp
  · intro v hv
    rw [build_cqm_discrete]
    exact List.mem_map.mpr ⟨v, List.mem_range.mpr hv, rfl⟩
  · rw [build_cqm_discrete]
    exact discrete_flatten_length G.nodeCount
  · rw [build_cqm_discrete]
    exact discrete_flatten_nodup G.nodeCount
  · intro s hb
    have e2 : evalSum (build_cqm G).objective s
        = (((List.range G.nodeCount).filter (fun v => s (v, 2) == 1)).length : Int) := by
      unfold evalSum build_cqm
      simp only [List.map_map]
      exact sum_map_binary _ _ (fun v _ => hb (v, 2))
    rw [e2, process_sample_def]

theorem variables_discrete_objective_witness :
    [((0 : Nat), (0 : Nat)), (0, 1), (0, 2)] ∈ (build_cqm ⟨1, []⟩).discrete
    ∧ evalSum (build_cqm ⟨1, []⟩).objective (fun p => if p.2 == 2 then 1 else 0)
        = (((process_sample ⟨1, []⟩ (fun p => if p.2 == 2 then 1 else 0)).2.2.1.length : Nat) : Int) :=
  ⟨(variables_discrete_objective ⟨1, []⟩).2.1 0 (by decide),
   (variables_discrete_objective ⟨1, []⟩).2.2.2.2 (fun p => if p.2 == 2 then 1 else 0)
     (fun x => by by_cases h : x.2 == 2 <;> simp [h])⟩

lemma edgeTerms_length (l : List (Nat × Nat)) :
    (l.flatMap edgeTerms).length = 2 * (l.filter (fun e => e.1 != e.2)).length := by
  induction l with
  | nil => rfl
  | cons a t ih =>
      rw [List.flatMap_cons, List.length_append, ih, List.filter_cons]
      by_cases h : a.1 = a.2
      · simp [edgeTerms, h]
      · simp [edgeTerms, h]
        omega

/-- C7: the `cross edges` constraint contains exactly the pair of quadratic
terms `x_a_0 * x_b_1` and `x_a_1 * x_b_0` for each non-self-loop edge `(a,b)`
(so two terms per such edge and none for a self-loop), and `build_cqm` is
deterministic: equal input graphs produce equal models. -/
theorem cross_terms_shape (G : Graph) :
    ((build_cqm G).cross_terms =
       G.edges.flatMap (fun e =>
         if e.1 ≠ e.2 then [⟨(e.1, 0), (e.2, 1)⟩, ⟨(e.1, 1), (e.2, 0)⟩] else []))
    ∧ (build_cqm G).cross_terms.length
        = 2 * (G.edges.filter (fun e => e.1 != e.2)).length
    ∧ (∀ G' : Graph, G.nodeCount = G'.nodeCount → G.edges = G'.edges →
        build_cqm G = build_cqm G') := by
  refine ⟨build_cqm_cross_terms G, ?_, ?_⟩
  · rw [build_cqm_cross_terms]
    exact edgeTerms_length G.edges
  · intro G' h1 h2
    obtain ⟨n, es⟩ := G
    obtain ⟨n', es'⟩ := G'
    cases h1
    cases h2
    rfl

theorem cross_terms_shape_witness :
    build_cqm ⟨2, [(0, 1)]⟩ = build_cqm ⟨2, [(0, 1)]⟩ :=
  (cross_terms_shape ⟨2, [(0, 1)]⟩).2.2 ⟨2, [(0, 1)]⟩ rfl rfl

/-- C8: on any sample in which exactly one of the three variables of each node
equals 1, the three group lists of `process_sample` are pairwise disjoint and
their union is exactly the node set. -/
theorem partition_of_one_hot (G : Graph) (s : Assignment)
    (hone : ∀ v, v < G.nodeCount → OneHot s v) :
    ((process_sample G s).1.Disjoint (process_sample G s).2.1
      ∧ (process_sample G s).1.Disjoint (process_sample G s).2.2.1
      ∧ (process_sample G s).2.1.Disjoint (process_sample G s).2.2.1)
    ∧ (∀ v : Nat,
        (v ∈ (process_sample G s).1 ∨ v ∈ (process_sample G s).2.1
          ∨ v ∈ (process_sample G s).2.2.1) ↔ v < G.nodeCount) := by
  rw [process_sample_def]
  dsimp only
  constructor
  · refine ⟨?_, ?_, ?_⟩ <;> intro v hv hv'
    · obtain ⟨hlt, h1⟩ := (mem_group_iff G s 0 v).mp hv
      obtain ⟨_, h2⟩ := (mem_group_iff G s 1 v).mp hv'
      have h := hone v hlt
      unfold OneHot at h
      rcases h with ⟨_, hn, _⟩ | ⟨hn, _, _⟩ | ⟨hn, _, _⟩
      · exact hn h2
      · exact hn h1
      · exact hn h1
    · obtain ⟨hlt, h1⟩ := (mem_group_iff G s 0 v).mp hv
      obtain ⟨_, h2⟩ := (mem_group_iff G s 2 v).mp hv'
      have h := hone v hlt
      unfold OneHot at h
      rcases h with ⟨_, _, hn⟩ | ⟨hn, _, _⟩ | ⟨hn, _, _⟩
      · exact hn h2
      · exact hn h1
      · exact hn h1
    · obtain ⟨hlt, h1⟩ := (mem_group_iff G s 1 v).mp hv
      obtain ⟨_, h2⟩ := (mem_group_iff G s 2 v).mp hv'
      have h := hone v hlt
      unfold OneHot at h
      rcases h with ⟨_, hn, _⟩ | ⟨_, _, hn⟩ | ⟨_, hn, _⟩
      · exact hn h1
      · exact hn h2
      · exact hn h1
  · intro v
    constructor
    · rintro (h | h | h) <;> exact ((mem_group_iff G s _ v).mp h).1
    · intro hv
      have h := hone v hv
      unfold OneHot at h
      rcases h with ⟨h1, _, _⟩ | ⟨_, h1, _⟩ | ⟨_, _, h1⟩
      · exact Or.inl ((mem_group_iff G s 0 v).mpr ⟨hv, h1⟩)
      · exact Or.inr (Or.inl ((mem_group_iff G s 1 v).mpr ⟨hv, h1⟩))
      · exact Or.inr (Or.inr ((mem_group_iff G s 2 v).mpr ⟨hv, h1⟩))

theorem partition_of_one_hot_witness :
    ((process_sample ⟨2, [(0, 1)]⟩ (fun p => if p.2 == 2 then 1 else 0)).1.Disjoint
        (process_sample ⟨2, [(0, 1)]⟩ (fun p => if p.2 == 2 then 1 else 0)).2.1
      ∧ (process_sample ⟨2, [(0, 1)]⟩ (fun p => if p.2 == 2 then 1 else 0)).1.Disjoint
          (process_sample ⟨2, [(0, 1)]⟩ (fun p => if p.2 == 2 then 1 else 0)).2.2.1
      ∧ (process_sample ⟨2, [(0, 1)]⟩ (fun p => if p.2 == 2 then 1 else 0)).2.1.Disjoint
          (process_sample ⟨2, [(0, 1)]⟩ (fun p => if p.2 == 2 then 1 else 0)).2.2.1)
    ∧ (∀ v : Nat,
        (v ∈ (process_sample ⟨2, [(0, 1)]⟩ (fun p => if p.2 == 2 then 1 else 0)).1
          ∨ v ∈ (process_sample ⟨2, [(0, 1)]⟩ (fun p => if p.2 == 2 then 1 else 0)).2.1
          ∨ v ∈ (process_sample ⟨2, [(0, 1)]⟩ (fun p => if p.2 == 2 then 1 else 0)).2.2.1)
          ↔ v < (⟨2, [(0, 1)]⟩ : Graph).nodeCount) :=
  partition_of_one_hot ⟨2, [(0, 1)]⟩ (fun p => if p.2 == 2 then 1 else 0)
    (fun v _ => by
      unfold OneHot
      right; right
      exact ⟨by simp, by simp, by simp⟩)

/-- C3 (counter-evidence): the `rand-reg` branch of `build_graph` prints the
warning "Setting size to 1000." for an out-of-range node count but never
assigns `args.nodes`, so `--graph rand-reg --nodes 2000` produces a
2000-node graph, above the valid upper bound `max_vars = 1666`. -/
theorem randreg_size_not_clamped :
    build_graph { graph := .randReg, nodes := 2000, degree := 4, prob := 1 / 4, new_edges := 4 }
      = some 2000
    ∧ ¬((2000 : Int) ≤ max_vars) := by
  decide

/-- C4 (counter-evidence): the SF branch's check `new_edges < 0 or
new_edges > nodes` admits `new_edges = nodes`, and
`nx.barabasi_albert_graph(2, 2)` then raises (`1 <= m < n` is required), so
`build_graph` raises to its caller instead of clamping. -/
theorem sf_generator_raises :
    build_graph { graph := .sf, nodes := 2, degree := 4, prob := 1 / 4, new_edges := 2 }
      = none := by
  decide

/-- C4 (second failing input): for `rand-reg` with `nodes = 0` the branch only
prints its warning, sets `degree = min(4, -1) = -1`, and
`nx.random_regular_graph(-1, 0)` raises (`0 <= d < n` is required). -/
theorem randreg_generator_raises :
    build_graph { graph := .randReg, nodes := 0, degree := 4, prob := 1 / 4, new_edges := 4 }
      = none := by
  decide

/-- C9: whenever `build_graph` returns a graph, that graph has at least one
node, so the separator-fraction division in `process_sample` (whose
denominator is the node count) never divides by zero. -/
theorem returned_graph_nonempty (args : Args) (n : Int)
    (h : build_graph args = some n) : 0 < n ∧ ((n : Rat) ≠ 0) := by
  have hpos : 0 < n := by
    obtain ⟨g, nodes, degree, prob, new_edges⟩ := args
    cases g
    case karate =>
      simp only [build_graph, karate_club_graph, Option.some.injEq] at h
      omega
    case internet =>
      simp only [build_graph, random_internet_as_graph, Option.some.injEq] at h
      split_ifs at h <;> omega
    case randReg =>
      simp only [build_graph, random_regular_graph] at h
      split_ifs at h <;> (try cases h) <;> omega
    case er =>
      simp only [build_graph, erdos_renyi_graph, Option.some.injEq] at h
      split_ifs at h <;> omega
    case sf =>
      simp only [build_graph, barabasi_albert_graph] at h
      split_ifs at h <;> (try cases h) <;> omega
  refine ⟨hpos, ?_⟩
  have hne : n ≠ 0 := by omega
  exact_mod_cast hne

theorem returned_graph_nonempty_witness :
    (0 : Int) < 34 ∧ (((34 : Int) : Rat) ≠ 0) :=
  returned_graph_nonempty
    { graph := .karate, nodes := 1000, degree := 4, prob := 1 / 4, new_edges := 4 } 34
    (by decide)

lemma parity_fix (nodes d0 : Int) (p : Int × Int) (h : 1 ≤ nodes) (h0 : 0 ≤ d0)
    (h1 : d0 ≤ nodes - 1)
    (hp : p = if d0 * nodes % 2 = 1 then
                if d0 > 0 then (d0 - 1, nodes)
                else if nodes - 1 > d0 then (d0, nodes - 1)
                else (4, 1000)
              else (d0, nodes)) :
    0 ≤ p.1 ∧ p.1 ≤ p.2 - 1 ∧ p.1 * p.2 % 2 = 0 ∧ p.2 = nodes := by
  by_cases hodd : d0 * nodes % 2 = 1
  · rw [if_pos hodd] at hp
    have hd0odd : Odd d0 := ((Int.odd_mul).mp (Int.odd_iff.mpr hodd)).1
    have hd0mod := Int.odd_iff.mp hd0odd
    have hd0pos : d0 > 0 := by omega
    rw [if_pos hd0pos] at hp
    subst hp
    dsimp only
    refine ⟨by omega, by omega, ?_, rfl⟩
    have heven : Even ((d0 - 1) * nodes) :=
      Int.even_mul.mpr (Or.inl (Int.even_iff.mpr (by omega)))
    exact Int.even_iff.mp heven
  · rw [if_neg hodd] at hp
    subst hp
    dsimp only
    exact ⟨h0, by omega, by omega, rfl⟩

/-- C10: for `rand-reg` with `nodes >= 1`, the adjusted `(degree, nodes)`
pair passed to `nx.random_regular_graph` satisfies `0 <= degree <= nodes - 1`
with `degree * nodes` even, and `nodes` is never changed by the parity fix-up
(so the branch decrementing `nodes` is never taken). -/
theorem randreg_parameters_valid (nodes degree : Int) (h : 1 ≤ nodes) :
    0 ≤ (rand_reg_params nodes degree).1
    ∧ (rand_reg_params nodes degree).1 ≤ (rand_reg_params nodes degree).2 - 1
    ∧ (rand_reg_params nodes degree).1 * (rand_reg_params nodes degree).2 % 2 = 0
    ∧ (rand_reg_params nodes degree).2 = nodes := by
  have hb : 0 ≤ (if degree < 0 ∨ degree ≥ nodes then min 4 (nodes - 1) else degree)
      ∧ (if degree < 0 ∨ degree ≥ nodes then min 4 (nodes - 1) else degree) ≤ nodes - 1 := by
    split_ifs with hc
    · omega
    · omega
  exact parity_fix nodes _ (rand_reg_params nodes degree) h hb.1 hb.2 rfl

theorem randreg_parameters_valid_witness :
    (1 : Int) ≤ 5
    ∧ (0 ≤ (rand_reg_params 5 3).1
        ∧ (rand_reg_params 5 3).1 ≤ (rand_reg_params 5 3).2 - 1
        ∧ (rand_reg_params 5 3).1 * (rand_reg_params 5 3).2 % 2 = 0
        ∧ (rand_reg_params 5 3).2 = 5) :=
  ⟨by decide, randreg_parameters_valid 5 3 (by decide)⟩

end Immunization
